import Mathlib

/-!
A shallow embedding of the `enum-set` crate (`src/lib.rs`): a set of C-like
enum variants stored as a `u32` bitmask, together with proofs of the
specification's claims about it.

Modelling conventions:
* `u32` values are `Nat`s; every operation in the source stays below `2 ^ 32`
  when its inputs do, so no wrapping arithmetic occurs and no `% 2 ^ 32` is
  needed inside the operations themselves.  Rust's `!x` on `u32` is the
  32-bit complement `x ^^^ (2 ^ 32 - 1)`.
* The `CLike` trait is a structure bundling the two conversion functions.
  `from_u32` is total here; the source only requires it to be correct on
  outputs of `to_u32`, which is all the set ever feeds it.
* The `assert!(value < 32)` panic in `bit` is modelled by `Option`/`Except`:
  `none`/`Except.error s` means the operation panicked, and for the mutating
  operations the `Except.error` payload is the set state at unwind time.
  Since the single mutating statement (`self.bits |= ...` / `&= ...`) runs
  only after `bit` has returned, the payload is the unchanged input set.
* `&mut self` methods are state-passing: they return the new set value.
-/

namespace EnumSetSpec

universe u

variable {E : Type u}

/-- The `CLike` trait: casting a C-like enum to `u32` and back
(`fn to_u32(&self) -> u32`, `unsafe fn from_u32(u32) -> Self`). -/
structure CLike (E : Type u) where
  to_u32 : E → Nat
  from_u32 : Nat → E

/-- `pub struct EnumSet<E> { bits: u32, phantom: PhantomData<E> }`.
The zero-sized `PhantomData` field is omitted; only `bits` carries data. -/
structure EnumSet where
  bits : Nat
deriving DecidableEq

/-- Rust `!x` on a `u32`: flip all 32 bits. -/
def u32_not (x : Nat) : Nat := x ^^^ (2 ^ 32 - 1)

/-- Model of `u32::count_ones`: population count of the binary expansion. -/
def count_ones (b : Nat) : Nat :=
  if h : b = 0 then 0 else b % 2 + count_ones (b / 2)
termination_by b
decreasing_by exact Nat.div_lt_self (by omega) (by omega)

/-- `fn bit<E: CLike>(e: &E) -> u32 { let value = e.to_u32();
assert!(value < 32, ...); 1 << value }`.  The panic is `none`. -/
def bit (cl : CLike E) (e : E) : Option Nat :=
  let value := cl.to_u32 e
  if value < 32 then some (2 ^ value) else none

/-- `EnumSet::new`: the empty set. -/
def EnumSet.new : EnumSet := ⟨0⟩

/-- `EnumSet::new_with_bits`. -/
def EnumSet.new_with_bits (bits : Nat) : EnumSet := ⟨bits⟩

/-- `EnumSet::len`: `self.bits.count_ones() as usize`. -/
def EnumSet.len (s : EnumSet) : Nat := count_ones s.bits

/-- `EnumSet::is_empty`: `self.bits == 0`. -/
def EnumSet.is_empty (s : EnumSet) : Bool := s.bits == 0

/-- `EnumSet::clear`: `self.bits = 0`. -/
def EnumSet.clear (_ : EnumSet) : EnumSet := ⟨0⟩

/-- `EnumSet::is_disjoint`: `(self.bits & other.bits) == 0`. -/
def EnumSet.is_disjoint (s other : EnumSet) : Bool := (s.bits &&& other.bits) == 0

/-- `EnumSet::is_superset`: `(self.bits & other.bits) == other.bits`. -/
def EnumSet.is_superset (s other : EnumSet) : Bool :=
  (s.bits &&& other.bits) == other.bits

/-- `EnumSet::is_subset`: `other.is_superset(self)`. -/
def EnumSet.is_subset (s other : EnumSet) : Bool := other.is_superset s

/-- `EnumSet::union`: `self.bits | other.bits`. -/
def EnumSet.union (s other : EnumSet) : EnumSet :=
  EnumSet.new_with_bits (s.bits ||| other.bits)

/-- `EnumSet::intersection`: `self.bits & other.bits`. -/
def EnumSet.intersection (s other : EnumSet) : EnumSet :=
  EnumSet.new_with_bits (s.bits &&& other.bits)

/-- `EnumSet::difference`: `self.bits & !other.bits`. -/
def EnumSet.difference (s other : EnumSet) : EnumSet :=
  EnumSet.new_with_bits (s.bits &&& u32_not other.bits)

/-- `EnumSet::symmetric_difference`: `self.bits ^ other.bits`. -/
def EnumSet.symmetric_difference (s other : EnumSet) : EnumSet :=
  EnumSet.new_with_bits (s.bits ^^^ other.bits)

/-- `EnumSet::contains`: `(self.bits & bit(value)) != 0`; panics (in `bit`)
when `to_u32 value >= 32`, modelled by `none`.  Takes `&self`: no mutation. -/
def EnumSet.contains (s : EnumSet) (cl : CLike E) (value : E) : Option Bool :=
  (bit cl value).map fun b => decide ((s.bits &&& b) ≠ 0)

/-- `EnumSet::insert`: `let result = !self.contains(&value);
self.bits |= bit(&value); result`.  A panic (inside `contains` or `bit`)
unwinds before the `|=` assignment, so the `Except.error` payload — the set
state at unwind — is the unchanged input set. -/
def EnumSet.insert (s : EnumSet) (cl : CLike E) (value : E) :
    Except EnumSet (Bool × EnumSet) :=
  match s.contains cl value with
  | none => Except.error s
  | some c =>
    match bit cl value with
    | none => Except.error s
    | some b => Except.ok (!c, EnumSet.mk (s.bits ||| b))

/-- `EnumSet::remove`: `let result = self.contains(value);
self.bits &= !bit(value); result`.  Panic modelling as in `insert`. -/
def EnumSet.remove (s : EnumSet) (cl : CLike E) (value : E) :
    Except EnumSet (Bool × EnumSet) :=
  match s.contains cl value with
  | none => Except.error s
  | some c =>
    match bit cl value with
    | none => Except.error s
    | some b => Except.ok (c, EnumSet.mk (s.bits &&& u32_not b))

/-- `pub struct Iter<E> { index: u32, bits: u32, phantom: PhantomData<*mut E> }`. -/
structure Iter where
  index : Nat
  bits : Nat
deriving DecidableEq

/-- `EnumSet::iter`: `Iter { index: 0, bits: self.bits, .. }` — the iterator
captures a copy of the set's bitmask at creation time. -/
def EnumSet.iter (s : EnumSet) : Iter := { index := 0, bits := s.bits }

/-- `#[derive(Clone)]` on `Iter`: a field-by-field copy. -/
def Iter.clone (it : Iter) : Iter := { index := it.index, bits := it.bits }

/-- The scan loop of `Iter::next`:
`while (self.bits & 1) == 0 { self.index += 1; self.bits >>= 1; }`.
`next` only enters this loop with `bits != 0` (guarded by the early return),
and halving an even nonzero number keeps it nonzero, so on every actual call
the added `bits ≠ 0` conjunct is invariantly true and this total model agrees
with the loop; with `bits = 0` the Rust loop would not terminate, which the
guard makes unreachable. -/
def skipZeros (index bits : Nat) : Nat × Nat :=
  if h : bits ≠ 0 ∧ bits % 2 = 0 then
    skipZeros (index + 1) (bits / 2)
  else
    (index, bits)
termination_by bits
decreasing_by exact Nat.div_lt_self (by omega) (by omega)

/-- `Iter::next`: early-return `None` when `bits == 0`; otherwise skip unset
low bits, decode the current index via `from_u32`, then advance past the
consumed bit (`self.index += 1; self.bits >>= 1`).  State-passing: returns
the yielded item together with the advanced iterator. -/
def Iter.next (cl : CLike E) (it : Iter) : Option E × Iter :=
  if it.bits = 0 then
    (none, it)
  else
    let p := skipZeros it.index it.bits
    (some (cl.from_u32 p.1), { index := p.1 + 1, bits := p.2 / 2 })

/-- `Iter::size_hint`: `let exact = self.bits.count_ones() as usize;
(exact, Some(exact))`. -/
def Iter.size_hint (it : Iter) : Nat × Option Nat :=
  (count_ones it.bits, some (count_ones it.bits))

/-- `impl Extend for EnumSet`: `for element in iter { self.insert(element); }`.
A panicking `insert` propagates, leaving the set at its state before the
failing element (carried by `Except.error`). -/
def EnumSet.extend (s : EnumSet) (cl : CLike E) : List E → Except EnumSet EnumSet
  | [] => Except.ok s
  | e :: rest =>
    match s.insert cl e with
    | Except.error s0 => Except.error s0
    | Except.ok (_, s1) => s1.extend cl rest

/-- `impl FromIterator for EnumSet`: `let mut ret = Self::new();
ret.extend(iterator); ret`. -/
def from_iter (cl : CLike E) (l : List E) : Except EnumSet EnumSet :=
  EnumSet.new.extend cl l

/-- `#[derive(PartialEq, Eq)]` on `EnumSet`: field-wise equality; the
`PhantomData` field always compares equal, leaving `bits == bits`. -/
def EnumSet.eq (a b : EnumSet) : Bool := a.bits == b.bits

/-- `#[derive(PartialOrd, Ord)]` on `EnumSet`: lexicographic field order;
`PhantomData` always compares `Equal`, leaving the numeric order of `bits`. -/
def EnumSet.cmp (a b : EnumSet) : Ordering := compare a.bits b.bits

/-- `impl Hash for EnumSet { fn hash(&self, state) { self.bits.hash(state) } }`:
only `bits` is fed to the hasher, so the digest is a function of `bits`
alone.  `hasher` stands for the ambient `Hasher`'s digest function. -/
def EnumSet.hash (hasher : Nat → Nat) (a : EnumSet) : Nat := hasher a.bits

/-! ### Driver and specification-side definitions -/

/-- Driver for a full iteration, fuel-indexed: repeatedly calls `Iter.next`
until end-of-sequence, collecting the yielded elements.  Each yielded element
strictly decreases the remaining bitmask, so `bits` itself is enough fuel
(`iterList` below; certified by `iterList_cons` and the claims). -/
def iterListAux (cl : CLike E) : Nat → Iter → List E
  | 0, _ => []
  | fuel + 1, it =>
    match Iter.next cl it with
    | (none, _) => []
    | (some e, it2) => e :: iterListAux cl fuel it2

/-- The full sequence of elements produced by repeatedly calling `Iter.next`. -/
def iterList (cl : CLike E) (it : Iter) : List E := iterListAux cl it.bits it

/-- Specification-side: the ascending list of set bit positions of a bitmask. -/
def bitIndices (b : Nat) : List Nat :=
  if h : b = 0 then []
  else if b % 2 = 1 then 0 :: (bitIndices (b / 2)).map (fun j => j + 1)
  else (bitIndices (b / 2)).map (fun j => j + 1)
termination_by b
decreasing_by all_goals exact Nat.div_lt_self (by omega) (by omega)

/-- Modelled from the spec's words, for the refinement comparison of bulk
construction: "starting from `new()` and calling `insert` on each element in
sequence order" (a panic in some `insert` propagates). -/
def insertEachSpec (cl : CLike E) : EnumSet → List E → Except EnumSet EnumSet
  | s, [] => Except.ok s
  | s, e :: rest =>
    match s.insert cl e with
    | Except.error s0 => Except.error s0
    | Except.ok (_, s1) => insertEachSpec cl s1 rest

/-- Fuel-bounded model of the scan loop, counting shifts: `none` means the
loop would need more than `fuel` shift steps. -/
def skipZerosFuel : Nat → Nat → Nat → Option (Nat × Nat)
  | fuel, index, bits =>
    if bits ≠ 0 ∧ bits % 2 = 0 then
      match fuel with
      | 0 => none
      | f + 1 => skipZerosFuel f (index + 1) (bits / 2)
    else
      some (index, bits)

/-- Fuel-bounded `Iter.next`: the scan loop is allowed at most `fuel` shifts. -/
def nextFuel (cl : CLike E) (fuel : Nat) (it : Iter) : Option (Option E × Iter) :=
  if it.bits = 0 then
    some (none, it)
  else
    match skipZerosFuel fuel it.index it.bits with
    | none => none
    | some p => some (some (cl.from_u32 p.1), { index := p.1 + 1, bits := p.2 / 2 })

/-- A concrete `CLike` instance on `Nat` (the identity coding), used to
instantiate universally quantified theorems at concrete inputs. -/
def clNat : CLike Nat := ⟨fun n => n, fun n => n⟩

/-! ### Helper lemmas -/

theorem count_ones_zero : count_ones 0 = 0 := by
  rw [count_ones]
  simp

theorem count_ones_of_ne (b : Nat) (hb : b ≠ 0) :
    count_ones b = b % 2 + count_ones (b / 2) := by
  rw [count_ones]
  simp [hb]

theorem and_two_pow_ne_zero_iff (x v : Nat) :
    ((x &&& 2 ^ v) ≠ 0) ↔ x.testBit v = true := by
  rw [Nat.and_two_pow]
  cases h : x.testBit v
  · simp
  · simp [(Nat.two_pow_pos v).ne']

theorem skipZeros_stop (i b : Nat) (h : ¬(b ≠ 0 ∧ b % 2 = 0)) :
    skipZeros i b = (i, b) := by
  rw [skipZeros]
  simp [h]

theorem skipZeros_step (i b : Nat) (h1 : b ≠ 0) (h2 : b % 2 = 0) :
    skipZeros i b = skipZeros (i + 1) (b / 2) := by
  rw [skipZeros]
  simp [h1, h2]

theorem next_zero (cl : CLike E) (i : Nat) :
    Iter.next cl ⟨i, 0⟩ = (none, ⟨i, 0⟩) := by
  simp [Iter.next]

theorem next_odd (cl : CLike E) (i b : Nat) (hb : b % 2 = 1) :
    Iter.next cl ⟨i, b⟩ = (some (cl.from_u32 i), ⟨i + 1, b / 2⟩) := by
  have h0 : b ≠ 0 := by omega
  simp [Iter.next, h0, skipZeros_stop i b (by omega)]

theorem next_even (cl : CLike E) (i b : Nat) (h1 : b ≠ 0) (h2 : b % 2 = 0) :
    Iter.next cl ⟨i, b⟩ = Iter.next cl ⟨i + 1, b / 2⟩ := by
  have h3 : b / 2 ≠ 0 := by omega
  simp [Iter.next, h1, h3, skipZeros_step i b h1 h2]

theorem bitIndices_zero_eq : bitIndices 0 = [] := by
  rw [bitIndices]
  simp

theorem bitIndices_odd (b : Nat) (hb : b % 2 = 1) :
    bitIndices b = 0 :: (bitIndices (b / 2)).map (fun j => j + 1) := by
  have h0 : b ≠ 0 := by omega
  rw [bitIndices]
  simp [h0, hb]

theorem bitIndices_even (b : Nat) (h1 : b ≠ 0) (h2 : b % 2 = 0) :
    bitIndices b = (bitIndices (b / 2)).map (fun j => j + 1) := by
  rw [bitIndices]
  simp [h1, show ¬b % 2 = 1 by omega]

theorem mem_map_add_one (L : List Nat) (j : Nat) :
    j + 1 ∈ L.map (fun x => x + 1) ↔ j ∈ L := by
  simp only [List.mem_map]
  constructor
  · rintro ⟨a, ha, hae⟩
    have haj : a = j := by omega
    exact haj ▸ ha
  · intro hj
    exact ⟨j, hj, rfl⟩

theorem mem_bitIndices (b : Nat) : ∀ j, j ∈ bitIndices b ↔ b.testBit j = true := by
  induction b using Nat.strongRecOn with
  | ind b ih =>
    intro j
    rcases Nat.eq_zero_or_pos b with h0 | h0
    · subst h0
      simp [bitIndices_zero_eq]
    · have hlt : b / 2 < b := Nat.div_lt_self h0 (by omega)
      rcases Nat.mod_two_eq_zero_or_one b with h2 | h2
      · rw [bitIndices_even b (by omega) h2]
        cases j with
        | zero => simp [List.mem_map, Nat.testBit_zero, h2]
        | succ j =>
          rw [Nat.testBit_succ, mem_map_add_one]
          exact ih (b / 2) hlt j
      · rw [bitIndices_odd b h2]
        cases j with
        | zero => simp [Nat.testBit_zero, h2]
        | succ j =>
          rw [Nat.testBit_succ]
          simp only [List.mem_cons, Nat.succ_ne_zero, false_or,
            Nat.add_eq_zero, and_false]
          rw [mem_map_add_one]
          exact ih (b / 2) hlt j

theorem pairwise_bitIndices (b : Nat) : (bitIndices b).Pairwise (· < ·) := by
  induction b using Nat.strongRecOn with
  | ind b ih =>
    rcases Nat.eq_zero_or_pos b with h0 | h0
    · subst h0
      simp [bitIndices_zero_eq]
    · have hlt : b / 2 < b := Nat.div_lt_self h0 (by omega)
      have ihp := ih (b / 2) hlt
      have hmap : ((bitIndices (b / 2)).map (fun j => j + 1)).Pairwise (· < ·) := by
        rw [List.pairwise_map]
        exact ihp.imp (by omega)
      rcases Nat.mod_two_eq_zero_or_one b with h2 | h2
      · rw [bitIndices_even b (by omega) h2]
        exact hmap
      · rw [bitIndices_odd b h2]
        refine List.Pairwise.cons ?_ hmap
        intro a ha
        simp only [List.mem_map] at ha
        omega

theorem length_bitIndices (b : Nat) : (bitIndices b).length = count_ones b := by
  induction b using Nat.strongRecOn with
  | ind b ih =>
    rcases Nat.eq_zero_or_pos b with h0 | h0
    · subst h0
      simp [bitIndices_zero_eq, count_ones_zero]
    · have hlt : b / 2 < b := Nat.div_lt_self h0 (by omega)
      rw [count_ones_of_ne b (by omega)]
      rcases Nat.mod_two_eq_zero_or_one b with h2 | h2
      · rw [bitIndices_even b (by omega) h2, h2]
        simp [ih (b / 2) hlt]
      · rw [bitIndices_odd b h2, h2]
        simp only [List.length_cons, List.length_map]
        rw [ih (b / 2) hlt]
        omega

theorem map_shift (g : Nat → E) (L : List Nat) (i : Nat) :
    (L.map (fun j => j + 1)).map (fun j => g (i + j)) =
      L.map (fun j => g (i + 1 + j)) := by
  rw [List.map_map]
  apply List.map_congr_left
  intro a _
  show g (i + (a + 1)) = g (i + 1 + a)
  congr 1
  omega

theorem iterListAux_eq_map (cl : CLike E) (b : Nat) :
    ∀ f i, b ≤ f →
      iterListAux cl f ⟨i, b⟩ = (bitIndices b).map (fun j => cl.from_u32 (i + j)) := by
  induction b using Nat.strongRecOn with
  | ind b ih =>
    intro f i hf
    rcases Nat.eq_zero_or_pos b with h0 | h0
    · subst h0
      cases f with
      | zero => simp [iterListAux, bitIndices_zero_eq]
      | succ f => simp [iterListAux, next_zero, bitIndices_zero_eq]
    · have hlt : b / 2 < b := Nat.div_lt_self h0 (by omega)
      obtain ⟨f, rfl⟩ : ∃ g, f = g + 1 := ⟨f - 1, by omega⟩
      rcases Nat.mod_two_eq_zero_or_one b with h2 | h2
      · have heq : iterListAux cl (f + 1) ⟨i, b⟩ = iterListAux cl (f + 1) ⟨i + 1, b / 2⟩ := by
          simp only [iterListAux]
          rw [next_even cl i b (by omega) h2]
        rw [heq, ih (b / 2) hlt (f + 1) (i + 1) (by omega),
          bitIndices_even b (by omega) h2, map_shift]
      · have heq : iterListAux cl (f + 1) ⟨i, b⟩ =
            cl.from_u32 i :: iterListAux cl f ⟨i + 1, b / 2⟩ := by
          simp only [iterListAux]
          rw [next_odd cl i b h2]
        rw [heq, ih (b / 2) hlt f (i + 1) (by omega),
          bitIndices_odd b h2, List.map_cons, map_shift]
        simp

theorem iterList_eq_map (cl : CLike E) (i b : Nat) :
    iterList cl ⟨i, b⟩ = (bitIndices b).map (fun j => cl.from_u32 (i + j)) :=
  iterListAux_eq_map cl b b i (Nat.le_refl b)

theorem map_skip_cons (g : Nat → E) (b : Nat) :
    ∀ i, b ≠ 0 →
      (bitIndices b).map (fun j => g (i + j)) =
        g (skipZeros i b).1 ::
          (bitIndices ((skipZeros i b).2 / 2)).map
            (fun j => g ((skipZeros i b).1 + 1 + j)) := by
  induction b using Nat.strongRecOn with
  | ind b ih =>
    intro i h0
    rcases Nat.mod_two_eq_zero_or_one b with h2 | h2
    · have hlt : b / 2 < b := Nat.div_lt_self (by omega) (by omega)
      rw [skipZeros_step i b h0 h2, bitIndices_even b h0 h2, map_shift]
      exact ih (b / 2) hlt (i + 1) (by omega)
    · rw [skipZeros_stop i b (by omega), bitIndices_odd b h2, List.map_cons, map_shift]
      simp

theorem iterList_cons (cl : CLike E) (it it2 : Iter) (x : E)
    (h : Iter.next cl it = (some x, it2)) :
    iterList cl it = x :: iterList cl it2 := by
  obtain ⟨i, b⟩ := it
  rcases Nat.eq_zero_or_pos b with h0 | h0
  · subst h0
    rw [next_zero] at h
    cases h
  · have hb : b ≠ 0 := by omega
    have hnext : Iter.next cl ⟨i, b⟩ =
        (some (cl.from_u32 (skipZeros i b).1),
          ⟨(skipZeros i b).1 + 1, (skipZeros i b).2 / 2⟩) := by
      simp [Iter.next, hb]
    rw [hnext] at h
    injection h with h1 h2
    injection h1 with h1
    subst h2
    subst h1
    rw [iterList_eq_map, iterList_eq_map]
    exact map_skip_cons cl.from_u32 b i hb

theorem skipZerosFuel_eq (f : Nat) :
    ∀ i b, b ≠ 0 → b < 2 ^ (f + 1) →
      skipZerosFuel f i b = some (skipZeros i b) := by
  induction f with
  | zero =>
    intro i b h0 hlt
    have hp : (2 : Nat) ^ (0 + 1) = 2 := by norm_num
    rw [hp] at hlt
    have hb1 : b = 1 := by omega
    subst hb1
    rw [skipZerosFuel, if_neg (by omega), skipZeros_stop i 1 (by omega)]
  | succ f ih =>
    intro i b h0 hlt
    rcases Nat.mod_two_eq_zero_or_one b with h2 | h2
    · have hp : (2 : Nat) ^ (f + 1 + 1) = 2 * 2 ^ (f + 1) := by ring
      rw [skipZerosFuel, if_pos ⟨h0, h2⟩]
      show skipZerosFuel f (i + 1) (b / 2) = some (skipZeros i b)
      rw [ih (i + 1) (b / 2) (by omega) (by omega), skipZeros_step i b h0 h2]
    · rw [skipZerosFuel, if_neg (by omega), skipZeros_stop i b (by omega)]

theorem bit_of_lt (cl : CLike E) (e : E) (h : cl.to_u32 e < 32) :
    bit cl e = some (2 ^ cl.to_u32 e) := by
  simp [bit, h]

theorem bit_of_ge (cl : CLike E) (e : E) (h : 32 ≤ cl.to_u32 e) :
    bit cl e = none := by
  simp only [bit]
  rw [if_neg (by omega)]

theorem decide_and_two_pow (x v : Nat) :
    decide ((x &&& 2 ^ v) ≠ 0) = x.testBit v := by
  have hiff := and_two_pow_ne_zero_iff x v
  cases h : x.testBit v
  · rw [h] at hiff
    simp at hiff
    simp [hiff]
  · rw [h] at hiff
    simp at hiff
    simp [hiff]

theorem decide_and_two_pow_zero (x v : Nat) :
    decide ((x &&& 2 ^ v) = 0) = !x.testBit v := by
  have hiff := and_two_pow_ne_zero_iff x v
  cases h : x.testBit v
  · rw [h] at hiff
    simp at hiff
    simp [hiff]
  · rw [h] at hiff
    simp at hiff
    simp [hiff]

theorem contains_eq_testBit (cl : CLike E) (s : EnumSet) (e : E)
    (h : cl.to_u32 e < 32) :
    s.contains cl e = some (s.bits.testBit (cl.to_u32 e)) := by
  simp [EnumSet.contains, bit_of_lt cl e h, decide_and_two_pow,
    decide_and_two_pow_zero]

theorem contains_none (cl : CLike E) (s : EnumSet) (e : E) (h : 32 ≤ cl.to_u32 e) :
    s.contains cl e = none := by
  simp [EnumSet.contains, bit_of_ge cl e h]

theorem insert_ok (cl : CLike E) (s : EnumSet) (e : E) (h : cl.to_u32 e < 32) :
    s.insert cl e =
      Except.ok (!s.bits.testBit (cl.to_u32 e),
        EnumSet.mk (s.bits ||| 2 ^ cl.to_u32 e)) := by
  simp [EnumSet.insert, contains_eq_testBit cl s e h, bit_of_lt cl e h]

theorem remove_ok (cl : CLike E) (s : EnumSet) (e : E) (h : cl.to_u32 e < 32) :
    s.remove cl e =
      Except.ok (s.bits.testBit (cl.to_u32 e),
        EnumSet.mk (s.bits &&& u32_not (2 ^ cl.to_u32 e))) := by
  simp [EnumSet.remove, contains_eq_testBit cl s e h, bit_of_lt cl e h]

theorem insert_err (cl : CLike E) (s : EnumSet) (e : E) (h : 32 ≤ cl.to_u32 e) :
    s.insert cl e = Except.error s := by
  simp [EnumSet.insert, contains_none cl s e h]

theorem remove_err (cl : CLike E) (s : EnumSet) (e : E) (h : 32 ≤ cl.to_u32 e) :
    s.remove cl e = Except.error s := by
  simp [EnumSet.remove, contains_none cl s e h]

theorem or_two_pow_testBit (x v : Nat) : (x ||| 2 ^ v).testBit v = true := by
  simp [Nat.testBit_or, Nat.testBit_two_pow_self]

theorem and_u32_not_two_pow_testBit (x v : Nat) (h : v < 32) :
    (x &&& u32_not (2 ^ v)).testBit v = false := by
  rw [u32_not, Nat.testBit_and, Nat.testBit_xor, Nat.testBit_two_pow_self,
    Nat.testBit_two_pow_sub_one]
  simp [h]

theorem or_two_pow_self_of_testBit (x v : Nat) (h : x.testBit v = true) :
    x ||| 2 ^ v = x := by
  apply Nat.eq_of_testBit_eq
  intro j
  rw [Nat.testBit_or]
  by_cases hj : v = j
  · subst hj
    rw [Nat.testBit_two_pow_self, h]
    rfl
  · rw [Nat.testBit_two_pow_of_ne hj]
    simp

theorem iterList_iter_eq (cl : CLike E) (s : EnumSet) :
    iterList cl s.iter = (bitIndices s.bits).map cl.from_u32 := by
  rw [show s.iter = (⟨0, s.bits⟩ : Iter) from rfl, iterList_eq_map]
  apply List.map_congr_left
  intro a _
  simp

/-! ### Claim theorems -/

/-- C1: for an element whose `to_u32` is ≥ 32, computing the bit position
fails fatally (`bit` panics), so `insert`, `remove` and `contains` all fail
at that point; in particular the failing `insert` and `remove` leave the
set's bitmask exactly unchanged (the unwind state is the input set). -/
theorem capacity_violation_fails_without_mutation (cl : CLike E) (s : EnumSet)
    (e : E) (h : 32 ≤ cl.to_u32 e) :
    bit cl e = none ∧
    s.contains cl e = none ∧
    s.insert cl e = Except.error s ∧
    s.remove cl e = Except.error s :=
  ⟨bit_of_ge cl e h, contains_none cl s e h, insert_err cl s e h,
    remove_err cl s e h⟩

/-- Witness for C1: inserting index 32 into the set with bitmask 5 panics
and leaves the bitmask 5 unchanged. -/
theorem capacity_violation_fails_without_mutation_witness :
    32 ≤ clNat.to_u32 32 ∧
    (EnumSet.mk 5).insert clNat 32 = Except.error (EnumSet.mk 5) :=
  ⟨by decide,
    (capacity_violation_fails_without_mutation clNat (EnumSet.mk 5) 32
      (by decide)).2.2.1⟩

/-- C2: for `to_u32 e < 32`, `insert` returns true iff the element was not
contained before and makes it contained afterwards; `remove` returns true iff
the element was contained before and makes it not contained afterwards. -/
theorem insert_remove_contract (cl : CLike E) (s : EnumSet) (e : E)
    (h : cl.to_u32 e < 32) :
    ∃ r1 s1 r2 s2,
      s.insert cl e = Except.ok (r1, s1) ∧
      (r1 = true ↔ s.contains cl e = some false) ∧
      s1.contains cl e = some true ∧
      s.remove cl e = Except.ok (r2, s2) ∧
      (r2 = true ↔ s.contains cl e = some true) ∧
      s2.contains cl e = some false := by
  refine ⟨!s.bits.testBit (cl.to_u32 e), EnumSet.mk (s.bits ||| 2 ^ cl.to_u32 e),
    s.bits.testBit (cl.to_u32 e),
    EnumSet.mk (s.bits &&& u32_not (2 ^ cl.to_u32 e)),
    insert_ok cl s e h, ?_, ?_, remove_ok cl s e h, ?_, ?_⟩
  · rw [contains_eq_testBit cl s e h]
    cases htb : s.bits.testBit (cl.to_u32 e) <;> simp
  · rw [contains_eq_testBit cl _ e h]
    show some ((s.bits ||| 2 ^ cl.to_u32 e).testBit (cl.to_u32 e)) = some true
    rw [or_two_pow_testBit]
  · rw [contains_eq_testBit cl s e h]
    cases htb : s.bits.testBit (cl.to_u32 e) <;> simp
  · rw [contains_eq_testBit cl _ e h]
    show some ((s.bits &&& u32_not (2 ^ cl.to_u32 e)).testBit (cl.to_u32 e)) =
      some false
    rw [and_u32_not_two_pow_testBit _ _ h]

/-- Witness for C2 at the empty set and the element coded 0. -/
theorem insert_remove_contract_witness :
    clNat.to_u32 0 < 32 ∧
    ∃ r1 s1 r2 s2,
      EnumSet.new.insert clNat 0 = Except.ok (r1, s1) ∧
      (r1 = true ↔ EnumSet.new.contains clNat 0 = some false) ∧
      s1.contains clNat 0 = some true ∧
      EnumSet.new.remove clNat 0 = Except.ok (r2, s2) ∧
      (r2 = true ↔ EnumSet.new.contains clNat 0 = some true) ∧
      s2.contains clNat 0 = some false :=
  ⟨by decide, insert_remove_contract clNat EnumSet.new 0 (by decide)⟩

/-- C3: a full iteration yields exactly the elements decoded (via `from_u32`)
from the set bit positions of the bitmask, each exactly once, in strictly
ascending bit-position order; an exhausted iterator keeps returning
end-of-sequence with unchanged state. -/
theorem iter_ascending_complete (cl : CLike E) (s : EnumSet) :
    iterList cl s.iter = (bitIndices s.bits).map cl.from_u32 ∧
    (bitIndices s.bits).Pairwise (· < ·) ∧
    (∀ j, j ∈ bitIndices s.bits ↔ s.bits.testBit j = true) ∧
    (∀ it : Iter, it.bits = 0 → Iter.next cl it = (none, it)) := by
  refine ⟨iterList_iter_eq cl s, pairwise_bitIndices s.bits,
    mem_bitIndices s.bits, ?_⟩
  intro it h0
  obtain ⟨i, b⟩ := it
  replace h0 : b = 0 := h0
  subst h0
  exact next_zero cl i

/-- Witness for C3: iterating the set with bitmask 5 yields positions 0, 2
and the exhaustion behaviour holds. -/
theorem iter_ascending_complete_witness :
    iterList clNat (EnumSet.mk 5).iter = (bitIndices 5).map clNat.from_u32 :=
  (iter_ascending_complete clNat (EnumSet.mk 5)).1

/-- C4: `len` equals the population count of the bitmask and the number of
elements yielded by a full iteration; at every iterator state, `size_hint`'s
exact lower and upper bound equal the number of elements still to be
yielded. -/
theorem len_size_hint_counts (cl : CLike E) (s : EnumSet) (it : Iter) :
    s.len = count_ones s.bits ∧
    s.len = (iterList cl s.iter).length ∧
    Iter.size_hint it = ((iterList cl it).length, some ((iterList cl it).length)) := by
  have key : ∀ j b, (iterList cl ⟨j, b⟩).length = count_ones b := by
    intro j b
    rw [iterList_eq_map, List.length_map, length_bitIndices]
  refine ⟨rfl, ?_, ?_⟩
  · rw [show s.iter = (⟨0, s.bits⟩ : Iter) from rfl, key]
    rfl
  · obtain ⟨j, b⟩ := it
    rw [key j b]
    rfl

/-- C5: for all sets A and B, `A.intersection(B) = A.difference(A.difference(B))`. -/
theorem intersection_eq_difference_difference (a b : EnumSet) :
    a.intersection b = a.difference (a.difference b) := by
  have key : a.bits &&& b.bits = a.bits &&& u32_not (a.bits &&& u32_not b.bits) := by
    apply Nat.eq_of_testBit_eq
    intro i
    simp only [u32_not, Nat.testBit_and, Nat.testBit_xor,
      Nat.testBit_two_pow_sub_one]
    by_cases hi : i < 32
    · rw [decide_eq_true hi]
      cases a.bits.testBit i <;> cases b.bits.testBit i <;> rfl
    · rw [decide_eq_false hi]
      cases a.bits.testBit i <;> cases b.bits.testBit i <;> rfl
  simp only [EnumSet.intersection, EnumSet.difference, EnumSet.new_with_bits,
    EnumSet.mk.injEq]
  exact key

/-- C6: equality of sets is equality of their bitmask integers; the derived
total order coincides with the numeric order of the bitmasks; hashing
depends only on the bitmask, so equal sets hash identically. -/
theorem eq_ord_hash_by_bits (a b : EnumSet) (hasher : Nat → Nat) :
    (EnumSet.eq a b = true ↔ a.bits = b.bits) ∧
    (EnumSet.cmp a b = Ordering.lt ↔ a.bits < b.bits) ∧
    (EnumSet.cmp a b = Ordering.eq ↔ a.bits = b.bits) ∧
    (EnumSet.cmp a b = Ordering.gt ↔ b.bits < a.bits) ∧
    (EnumSet.eq a b = true → EnumSet.hash hasher a = EnumSet.hash hasher b) := by
  refine ⟨?_, Nat.compare_eq_lt, Nat.compare_eq_eq, Nat.compare_eq_gt, ?_⟩
  · simp [EnumSet.eq]
  · intro h
    simp only [EnumSet.eq, beq_iff_eq] at h
    simp [EnumSet.hash, h]

/-- Witness for C6: two sets with the same bitmask hash identically. -/
theorem eq_ord_hash_by_bits_witness :
    EnumSet.hash Nat.succ (EnumSet.mk 7) = EnumSet.hash Nat.succ (EnumSet.mk 7) :=
  (eq_ord_hash_by_bits (EnumSet.mk 7) (EnumSet.mk 7) Nat.succ).2.2.2.2 (by decide)

/-- C7: an iterator is a snapshot: it stores a copy of the set's bitmask made
at creation, so after a mutation (here: a successful `insert` producing `s2`)
the iterator created from `s` still yields exactly the elements decoded from
the old bitmask `s.bits`; cloning copies the iterator fields, and advancing
an iterator only produces a new advanced value — the pre-advance value (and
hence any clone taken there) retains the full remaining sequence. -/
theorem iter_snapshot_clone_independent (cl : CLike E) (s s2 : EnumSet) (e : E)
    (r : Bool) (_h : s.insert cl e = Except.ok (r, s2)) :
    s.iter = ⟨0, s.bits⟩ ∧
    iterList cl s.iter = (bitIndices s.bits).map cl.from_u32 ∧
    (∀ it : Iter, it.clone = it) ∧
    (∀ (it it2 : Iter) (x : E), Iter.next cl it = (some x, it2) →
      iterList cl it = x :: iterList cl it2 ∧
        iterList cl it.clone = iterList cl it) := by
  refine ⟨rfl, iterList_iter_eq cl s, fun it => rfl, ?_⟩
  intro it it2 x hnext
  exact ⟨iterList_cons cl it it2 x hnext, rfl⟩

/-- Witness for C7: after inserting element 1 into the set `{0}` (bitmask 1,
becoming bitmask 3), the iterator made from the old set still yields the
decoding of bitmask 1. -/
theorem iter_snapshot_clone_independent_witness :
    iterList clNat (EnumSet.mk 1).iter = (bitIndices 1).map clNat.from_u32 :=
  (iter_snapshot_clone_independent clNat (EnumSet.mk 1) (EnumSet.mk 3) 1 true
    (by rfl)).2.1

/-- C8: building a set from a finite sequence (`FromIterator` via `Extend`)
produces exactly the result of starting from `new()` and inserting each
element in sequence order; inserting an already-present element returns
false and leaves the set value unchanged. -/
theorem from_iter_eq_insert_each (cl : CLike E) (l : List E) (s : EnumSet)
    (e : E) (h : s.contains cl e = some true) :
    from_iter cl l = insertEachSpec cl EnumSet.new l ∧
    s.insert cl e = Except.ok (false, s) := by
  constructor
  · have key : ∀ (l2 : List E) (t : EnumSet),
        t.extend cl l2 = insertEachSpec cl t l2 := by
      intro l2
      induction l2 with
      | nil => intro t; rfl
      | cons x rest ih =>
        intro t
        rw [EnumSet.extend, insertEachSpec]
        cases hins : t.insert cl x with
        | error s0 => rfl
        | ok p =>
          obtain ⟨r, s1⟩ := p
          exact ih s1
    exact key l EnumSet.new
  · by_cases hv : cl.to_u32 e < 32
    · have htb : s.bits.testBit (cl.to_u32 e) = true := by
        have hc := contains_eq_testBit cl s e hv
        rw [hc] at h
        exact Option.some.inj h
      rw [insert_ok cl s e hv, htb, or_two_pow_self_of_testBit _ _ htb]
      rfl
    · rw [contains_none cl s e (by omega)] at h
      cases h

/-- Witness for C8: the set `{1}` (bitmask 2) contains element 1, and
re-inserting 1 returns false and leaves the set unchanged. -/
theorem from_iter_eq_insert_each_witness :
    (EnumSet.mk 2).insert clNat 1 = Except.ok (false, EnumSet.mk 2) :=
  (from_iter_eq_insert_each clNat [] (EnumSet.mk 2) 1 (by decide)).2

/-- C9: every operation preserves the bitmask invariant: a successful
`insert` sets exactly the single bit `2 ^ to_u32 e` with `to_u32 e < 32`
checked first; `remove` and `clear` only clear bits; the four binary set
operations never introduce a bit position outside the union of their
operands' set bits; and any predicate holding at every set bit of a set
holds at every index the iterator decodes via `from_u32` (`bitIndices`). -/
theorem invariant_preservation (cl : CLike E) (a b s s2 : EnumSet) (e : E)
    (r : Bool) (P : Nat → Prop) :
    (s.insert cl e = Except.ok (r, s2) →
      cl.to_u32 e < 32 ∧ s2.bits = s.bits ||| 2 ^ cl.to_u32 e ∧
      ∀ j, s2.bits.testBit j = true →
        s.bits.testBit j = true ∨ j = cl.to_u32 e) ∧
    (s.remove cl e = Except.ok (r, s2) →
      ∀ j, s2.bits.testBit j = true → s.bits.testBit j = true) ∧
    s.clear.bits = 0 ∧
    (∀ j, (a.union b).bits.testBit j = true →
      a.bits.testBit j = true ∨ b.bits.testBit j = true) ∧
    (∀ j, (a.intersection b).bits.testBit j = true →
      a.bits.testBit j = true ∨ b.bits.testBit j = true) ∧
    (∀ j, (a.difference b).bits.testBit j = true →
      a.bits.testBit j = true ∨ b.bits.testBit j = true) ∧
    (∀ j, (a.symmetric_difference b).bits.testBit j = true →
      a.bits.testBit j = true ∨ b.bits.testBit j = true) ∧
    ((∀ j, s.bits.testBit j = true → P j) → ∀ j ∈ bitIndices s.bits, P j) := by
  refine ⟨?_, ?_, rfl, ?_, ?_, ?_, ?_, ?_⟩
  · intro hins
    by_cases hv : cl.to_u32 e < 32
    · rw [insert_ok cl s e hv] at hins
      injection hins with hins
      have hbits : s2.bits = s.bits ||| 2 ^ cl.to_u32 e :=
        (congrArg (fun p => p.2.bits) hins).symm
      refine ⟨hv, hbits, ?_⟩
      intro j hj
      rw [hbits, Nat.testBit_or] at hj
      cases ha : s.bits.testBit j
      · rw [ha] at hj
        simp only [Bool.false_or] at hj
        rw [Nat.testBit_two_pow] at hj
        right
        exact (of_decide_eq_true hj).symm
      · left
        rfl
    · rw [insert_err cl s e (by omega)] at hins
      cases hins
  · intro hrem
    by_cases hv : cl.to_u32 e < 32
    · rw [remove_ok cl s e hv] at hrem
      injection hrem with hrem
      have hbits : s2.bits = s.bits &&& u32_not (2 ^ cl.to_u32 e) :=
        (congrArg (fun p => p.2.bits) hrem).symm
      intro j hj
      rw [hbits, Nat.testBit_and] at hj
      exact (Bool.and_eq_true_iff.mp hj).1
    · rw [remove_err cl s e (by omega)] at hrem
      cases hrem
  · intro j hj
    rw [EnumSet.union] at hj
    simp only [EnumSet.new_with_bits, Nat.testBit_or] at hj
    exact Bool.or_eq_true_iff.mp hj
  · intro j hj
    rw [EnumSet.intersection] at hj
    simp only [EnumSet.new_with_bits, Nat.testBit_and] at hj
    exact Or.inl (Bool.and_eq_true_iff.mp hj).1
  · intro j hj
    rw [EnumSet.difference] at hj
    simp only [EnumSet.new_with_bits, Nat.testBit_and] at hj
    exact Or.inl (Bool.and_eq_true_iff.mp hj).1
  · intro j hj
    rw [EnumSet.symmetric_difference] at hj
    simp only [EnumSet.new_with_bits, Nat.testBit_xor] at hj
    cases ha : a.bits.testBit j
    · cases hb : b.bits.testBit j
      · rw [ha, hb] at hj
        cases hj
      · exact Or.inr rfl
    · exact Or.inl rfl
  · intro hP j hj
    exact hP j ((mem_bitIndices s.bits j).mp hj)

/-- Witness for C9: inserting element 2 into the set with bitmask 1 yields
bitmask 5 = 1 OR 4, the checked index 2 is below 32, and every set bit of 5
is a set bit of 1 or the new position 2. -/
theorem invariant_preservation_witness :
    clNat.to_u32 2 < 32 ∧
    (EnumSet.mk 5).bits = (EnumSet.mk 1).bits ||| 2 ^ clNat.to_u32 2 ∧
    ∀ j, (EnumSet.mk 5).bits.testBit j = true →
      (EnumSet.mk 1).bits.testBit j = true ∨ j = clNat.to_u32 2 :=
  (invariant_preservation clNat (EnumSet.mk 0) (EnumSet.mk 0) (EnumSet.mk 1)
    (EnumSet.mk 5) 2 true (fun _ => True)).1 (by rfl)

/-- C10: `Iter::next` terminates: for any 32-bit remaining bitmask, the
scan loop reaches a set bit after at most 31 shifts, so the fuel-bounded
model with 31 allowed shifts agrees with (and certifies termination of)
`Iter.next` — every call returns an element or end-of-sequence in finitely
many steps. -/
theorem next_terminates_fuel (cl : CLike E) (it : Iter) (h : it.bits < 2 ^ 32) :
    nextFuel cl 31 it = some (Iter.next cl it) := by
  obtain ⟨i, b⟩ := it
  rcases Nat.eq_zero_or_pos b with h0 | h0
  · subst h0
    simp [nextFuel, Iter.next]
  · have hb : b ≠ 0 := by omega
    have hlt : b < 2 ^ (31 + 1) := h
    simp [nextFuel, Iter.next, hb, skipZerosFuel_eq 31 i b hb hlt]

/-- Witness for C10 at the worst-case mask `2 ^ 31` (31 shifts needed). -/
theorem next_terminates_fuel_witness :
    (Iter.mk 0 (2 ^ 31)).bits < 2 ^ 32 ∧
    nextFuel clNat 31 (Iter.mk 0 (2 ^ 31)) =
      some (Iter.next clNat (Iter.mk 0 (2 ^ 31))) :=
  ⟨by norm_num, next_terminates_fuel clNat (Iter.mk 0 (2 ^ 31)) (by norm_num)⟩

end EnumSetSpec
